import Mathlib

/-!
Verification of the series grouping and static-path generation logic of the
blog repository, embedded from `src/pages/series/[...id].astro`.

The page code is:

  const posts = await getCollection("blog", ({ data }) => !data.draft);
  const serieses = [
    ...new Set(posts.flatMap((post) => post.data.series || [])),
  ];
  return serieses.map((series) => ({
    params: { id: series },
    props: {
      posts: posts.filter((post) => post.data.series?.includes(series)),
    },
  }));
  ...
  const sortedPosts = posts.sort(
    (a, b) => new Date(b.data.date).getTime() - new Date(a.data.date).getTime(),
  );

Entries are the `CollectionEntry<"blog">` records delivered by the content
store; the fields used by this page are `data.series`, `data.date` and
`data.draft`.
-/

namespace SeriesPage

/-- Modelled from the spec: the content-collection schema declaring the type of
the `series` field is not part of the source tree (only the page code that
consumes it is).  Spec §3 declares the groups field as an "ordered sequence of
zero or more group-identifier strings" that may also be absent, and §9 insists
the field is multi-valued; `draft` is an optional boolean and `date` a
timestamp.  So an entry carries `series : Option (List String)`,
`draft : Option Bool` (absent when the front matter has no flag) and
`date : Int` (the millisecond value `new Date(...).getTime()` evaluates to). -/
structure ContentEntry where
  id : String
  series : Option (List String)
  date : Int
  draft : Option Bool
deriving DecidableEq, Repr

/-- The collection filter `({ data }) => !data.draft`: JavaScript `!` maps an
absent (`undefined`) flag to `true`, so only `draft: true` is excluded. -/
def notDraft (e : ContentEntry) : Bool :=
  !(e.draft.getD false)

/-- `post.data.series || []`: an absent field is replaced by the empty array;
any present array (empty or not, JavaScript arrays are always truthy) is kept. -/
def seriesOrEmpty (e : ContentEntry) : List String :=
  e.series.getD []

/-- `post.data.series?.includes(series)`: optional chaining makes an absent
field yield `undefined`, which the surrounding `filter` treats as `false`;
on a present array `Array.prototype.includes` is exact element membership. -/
def seriesHas (e : ContentEntry) (g : String) : Bool :=
  match e.series with
  | none => false
  | some l => l.contains g

/-- One step of `new Set(...)` insertion: a value already seen is dropped,
a new one is appended (JavaScript sets iterate in insertion order). -/
def setInsert (seen : List String) (x : String) : List String :=
  if x ∈ seen then seen else seen ++ [x]

/-- `[...new Set(xs)]`: deduplicate, keeping the first occurrence of each
value, in insertion order. -/
def jsSetList (xs : List String) : List String :=
  xs.foldl setInsert []

/-- The comparison the page's sort comparator
`(a, b) => new Date(b.data.date).getTime() - new Date(a.data.date).getTime()`
induces: `a` is placed no later than `b` exactly when the comparator is ≤ 0,
i.e. when `b.date ≤ a.date` (descending). -/
def dateDescLe (a b : ContentEntry) : Bool :=
  b.date ≤ a.date

/-- `posts.sort(comparator)`: ECMAScript `Array.prototype.sort` is a stable
sort consistent with the comparator, which for the consistent comparator above
is exactly stable merge sort by `dateDescLe`. -/
def sortedPosts (posts : List ContentEntry) : List ContentEntry :=
  posts.mergeSort dateDescLe

/-- `getStaticPaths`, line for line: fetch the non-draft posts, compute the
distinct series, and emit one `(params.id, props.posts)` pair per series,
where `props.posts` is the (not yet sorted) filtered subset. -/
def getStaticPaths (entries : List ContentEntry) : List (String × List ContentEntry) :=
  let posts := entries.filter notDraft
  let serieses := jsSetList (posts.flatMap seriesOrEmpty)
  serieses.map (fun series => (series, posts.filter (fun post => seriesHas post series)))

/-- The spec operation `distinctGroups`: the `serieses` computation applied to
the draft-filtered collection, exactly as the page computes it. -/
def distinctGroups (entries : List ContentEntry) : List String :=
  jsSetList ((entries.filter notDraft).flatMap seriesOrEmpty)

/-- The spec operation `entriesForGroup`: the code path a single series page
applies to the collection — drop drafts, keep the posts whose `series` field
contains the identifier, sort by date descending. -/
def entriesForGroup (entries : List ContentEntry) (g : String) : List ContentEntry :=
  sortedPosts ((entries.filter notDraft).filter (fun post => seriesHas post g))

/-- The spec operation `buildIndex`: what the whole page pipeline produces,
namely `getStaticPaths` followed by the per-page render-time sort. -/
def buildIndex (entries : List ContentEntry) : List (String × List ContentEntry) :=
  (getStaticPaths entries).map (fun p => (p.1, sortedPosts p.2))

/-- State-threaded view of a single page's computation.  `Array.prototype.sort`
mutates its receiver in place, but the receiver here is the fresh array
`posts.filter(...)` allocated by `filter`; the input collection is never
written to, so its final state (second component) is the collection itself. -/
def entriesForGroupRun (entries : List ContentEntry) (g : String) :
    List ContentEntry × List ContentEntry :=
  let filtered := (entries.filter notDraft).filter (fun post => seriesHas post g)
  (sortedPosts filtered, entries)

/-- State-threaded view of the whole pipeline: every array the pipeline
mutates (`filter` results handed to `sort`) is freshly allocated, so the
input collection's final state is the collection itself. -/
def buildIndexRun (entries : List ContentEntry) :
    List (String × List ContentEntry) × List ContentEntry :=
  (buildIndex entries, entries)

/-! ### Helper lemmas about `jsSetList` -/

theorem mem_foldl_setInsert (xs : List String) :
    ∀ (seen : List String) (x : String),
      x ∈ xs.foldl setInsert seen ↔ x ∈ seen ∨ x ∈ xs := by
  induction xs with
  | nil => simp
  | cons a xs ih =>
    intro seen x
    simp only [List.foldl_cons, setInsert]
    by_cases ha : a ∈ seen
    · rw [if_pos ha, ih]
      constructor
      · rintro (h | h)
        · exact Or.inl h
        · exact Or.inr (List.mem_cons_of_mem a h)
      · rintro (h | h)
        · exact Or.inl h
        · rcases List.mem_cons.mp h with rfl | h
          · exact Or.inl ha
          · exact Or.inr h
    · rw [if_neg ha, ih]
      simp only [List.mem_append, List.mem_singleton, List.mem_cons]
      tauto

theorem mem_jsSetList {x : String} {xs : List String} :
    x ∈ jsSetList xs ↔ x ∈ xs := by
  simp [jsSetList, mem_foldl_setInsert]

theorem nodup_foldl_setInsert (xs : List String) :
    ∀ (seen : List String), seen.Nodup → (xs.foldl setInsert seen).Nodup := by
  induction xs with
  | nil => exact fun _ h => h
  | cons a xs ih =>
    intro seen hseen
    simp only [List.foldl_cons]
    apply ih
    unfold setInsert
    by_cases ha : a ∈ seen
    · simpa [ha] using hseen
    · simpa [ha, List.nodup_append] using hseen

theorem nodup_jsSetList (xs : List String) : (jsSetList xs).Nodup :=
  nodup_foldl_setInsert xs [] List.nodup_nil

/-! ### Helper lemmas about the sort -/

theorem dateDescLe_trans :
    ∀ (a b c : ContentEntry), dateDescLe a b → dateDescLe b c → dateDescLe a c := by
  intro a b c hab hbc
  simp only [dateDescLe, decide_eq_true_eq] at *
  omega

theorem dateDescLe_total :
    ∀ (a b : ContentEntry), dateDescLe a b || dateDescLe b a := by
  intro a b
  simp only [dateDescLe, Bool.or_eq_true, decide_eq_true_eq]
  omega

theorem mem_sortedPosts {e : ContentEntry} {l : List ContentEntry} :
    e ∈ sortedPosts l ↔ e ∈ l := by
  simp [sortedPosts]

theorem sortedPosts_pairwise (l : List ContentEntry) :
    (sortedPosts l).Pairwise (fun a b => dateDescLe a b) :=
  List.sorted_mergeSort dateDescLe_trans dateDescLe_total l

theorem pairwise_filter_date (l : List ContentEntry) (t : Int) :
    (l.filter (fun e => e.date == t)).Pairwise (fun a b => dateDescLe a b = true) := by
  apply List.pairwise_of_forall_mem_list
  intro a ha b hb
  have ha' := List.of_mem_filter ha
  have hb' := List.of_mem_filter hb
  simp only [beq_iff_eq] at ha' hb'
  simp [dateDescLe, ha', hb']

/-- Stability of the page's sort, in filter form: the elements carrying any
fixed timestamp come out of the sort in exactly the order they went in. -/
theorem sortedPosts_filter_date (l : List ContentEntry) (t : Int) :
    (sortedPosts l).filter (fun e => e.date == t) = l.filter (fun e => e.date == t) := by
  have hsub : List.Sublist (l.filter (fun e => e.date == t)) (sortedPosts l) := by
    apply List.sublist_mergeSort dateDescLe_trans dateDescLe_total
    · exact pairwise_filter_date l t
    · exact List.filter_sublist l
  have hperm : List.Perm ((sortedPosts l).filter (fun e => e.date == t))
      (l.filter (fun e => e.date == t)) :=
    (List.mergeSort_perm l dateDescLe).filter _
  have hsub2 : List.Sublist (l.filter (fun e => e.date == t))
      ((sortedPosts l).filter (fun e => e.date == t)) := by
    have h := hsub.filter (fun e => e.date == t)
    have heq : (l.filter (fun e => e.date == t)).filter (fun e => e.date == t)
        = l.filter (fun e => e.date == t) := by
      simp [List.filter_filter]
    rwa [heq] at h
  exact (hsub2.eq_of_length hperm.length_eq.symm).symm

/-! ### Membership characterizations -/

theorem seriesHas_iff {e : ContentEntry} {g : String} :
    seriesHas e g = true ↔ g ∈ seriesOrEmpty e := by
  cases h : e.series <;>
    simp [seriesHas, seriesOrEmpty, h, List.contains, List.elem_iff]

theorem mem_distinctGroups {entries : List ContentEntry} {g : String} :
    g ∈ distinctGroups entries ↔
      ∃ e ∈ entries, notDraft e = true ∧ g ∈ seriesOrEmpty e := by
  simp only [distinctGroups, mem_jsSetList, List.mem_flatMap, List.mem_filter]
  constructor
  · rintro ⟨e, ⟨he, hd⟩, hg⟩
    exact ⟨e, he, hd, hg⟩
  · rintro ⟨e, he, hd, hg⟩
    exact ⟨e, ⟨he, hd⟩, hg⟩

theorem mem_entriesForGroup {entries : List ContentEntry} {g : String}
    {e : ContentEntry} :
    e ∈ entriesForGroup entries g ↔
      e ∈ entries ∧ notDraft e = true ∧ seriesHas e g = true := by
  simp only [entriesForGroup, mem_sortedPosts, List.mem_filter, and_assoc]

/-! ### Concrete entries used to instantiate the theorems -/

def postGo : ContentEntry :=
  { id := "post-go", series := some ["go-series"], date := 100, draft := none }

def postEmptyTag : ContentEntry :=
  { id := "post-empty-tag", series := some [""], date := 0, draft := none }

/-! ### Claims -/

/-- C1: for every entry collection and every group identifier `g` in
`distinctGroups entries`, every entry of `entriesForGroup entries g` has `g`
as an element of its own groups sequence (exact element membership of the
multi-valued `series` field, not substring matching) and is not excluded. -/
theorem C1_soundness (entries : List ContentEntry) (g : String)
    (_hg : g ∈ distinctGroups entries) (e : ContentEntry)
    (he : e ∈ entriesForGroup entries g) :
    g ∈ seriesOrEmpty e ∧ notDraft e = true := by
  obtain ⟨-, hd, hs⟩ := mem_entriesForGroup.mp he
  exact ⟨seriesHas_iff.mp hs, hd⟩

/-- C1 instantiated at a one-entry collection. -/
theorem C1_soundness_witness :
    ("go-series" ∈ distinctGroups [postGo]) ∧
    (postGo ∈ entriesForGroup [postGo] "go-series") ∧
    ("go-series" ∈ seriesOrEmpty postGo ∧ notDraft postGo = true) :=
  ⟨by decide,
   mem_entriesForGroup.mpr ⟨List.mem_singleton.mpr rfl, by decide, by decide⟩,
   C1_soundness [postGo] "go-series" (by decide) postGo
     (mem_entriesForGroup.mpr ⟨List.mem_singleton.mpr rfl, by decide, by decide⟩)⟩

/-- C2 as stated is false on the code: an entry whose groups sequence is
`[""]` is a truthy (non-absent) value, so `flatMap (series || [])` emits the
empty identifier and the set spread keeps it — `distinctGroups` propagates
`""` as a group. -/
theorem C2_counterexample : "" ∈ distinctGroups [postEmptyTag] := by decide

/-- C2 amended: `distinctGroups` returns distinct identifiers, exactly those
occurring in the groups fields of non-excluded entries (an absent groups
field contributes nothing); an empty-string identifier contained in a present
groups sequence is propagated like any other identifier. -/
theorem C2_amended_distinct (entries : List ContentEntry) :
    (distinctGroups entries).Nodup ∧
    ∀ g : String,
      (g ∈ distinctGroups entries ↔
        ∃ e ∈ entries, notDraft e = true ∧ g ∈ seriesOrEmpty e) :=
  ⟨nodup_jsSetList _, fun _ => mem_distinctGroups⟩

/-- C3: `entriesForGroup` leaves the input collection in its original state
(the in-place render-time sort runs on the fresh array `filter` allocated)
and its result is a pure function of the collection and the identifier. -/
theorem C3_no_mutation (entries : List ContentEntry) (g : String) :
    (entriesForGroupRun entries g).2 = entries ∧
    (entriesForGroupRun entries g).1 = entriesForGroup entries g :=
  ⟨rfl, rfl⟩

/-- C4: in the output of `entriesForGroup` every adjacent pair is ordered by
non-increasing date, and for every timestamp the entries carrying it appear
in exactly their relative input order (stability); the output is a pure
function of the input, hence identical across runs. -/
theorem C4_sorted_stable (entries : List ContentEntry) (g : String) :
    List.Chain' (fun a b => b.date ≤ a.date) (entriesForGroup entries g) ∧
    ∀ t : Int,
      (entriesForGroup entries g).filter (fun e => e.date == t) =
        entries.filter (fun e => notDraft e && (seriesHas e g && (e.date == t))) := by
  constructor
  · apply List.Pairwise.chain'
    apply (sortedPosts_pairwise _).imp
    intro a b h
    simpa [dateDescLe] using h
  · intro t
    rw [entriesForGroup, sortedPosts_filter_date, List.filter_filter,
      List.filter_filter]
    congr 1
    funext e
    cases hd : notDraft e <;> cases hs : seriesHas e g <;>
      cases ht : (e.date == t) <;> simp [hd, hs, ht]

/-- C5: every identifier of a non-excluded entry is discovered by
`distinctGroups`; every discovered identifier stems from a non-excluded
entry; and an excluded entry appears in no group's output. -/
theorem C5_completeness_exclusion (entries : List ContentEntry) :
    (∀ e ∈ entries, notDraft e = true →
      ∀ g ∈ seriesOrEmpty e, g ∈ distinctGroups entries) ∧
    (∀ g ∈ distinctGroups entries,
      ∃ e ∈ entries, notDraft e = true ∧ g ∈ seriesOrEmpty e) ∧
    (∀ g : String, ∀ e : ContentEntry,
      e.draft = some true → e ∉ entriesForGroup entries g) := by
  refine ⟨?_, ?_, ?_⟩
  · intro e he hd g hg
    exact mem_distinctGroups.mpr ⟨e, he, hd, hg⟩
  · intro g hg
    exact mem_distinctGroups.mp hg
  · intro g e hdraft hmem
    obtain ⟨-, hd, -⟩ := mem_entriesForGroup.mp hmem
    simp [notDraft, hdraft] at hd

/-- C6: the page pipeline (static paths plus render-time sort) produces, for
every identifier of `distinctGroups`, exactly `entriesForGroup` — no further
filtering, sorting or deduplication. -/
theorem C6_buildIndex_composition (entries : List ContentEntry) :
    buildIndex entries =
      (distinctGroups entries).map (fun g => (g, entriesForGroup entries g)) := by
  simp only [buildIndex, getStaticPaths, distinctGroups, entriesForGroup,
    List.map_map]
  rfl

/-- C7: an identifier outside `distinctGroups` selects no entry, so its page
would be empty, and the empty collection yields an empty identifier set;
neither case is an error (both are total computations). -/
theorem C7_unknown_group (entries : List ContentEntry) (g : String)
    (hg : g ∉ distinctGroups entries) :
    entriesForGroup entries g = [] ∧
    distinctGroups ([] : List ContentEntry) = [] := by
  refine ⟨?_, rfl⟩
  have hfil : (entries.filter notDraft).filter (fun post => seriesHas post g)
      = [] := by
    rw [List.filter_eq_nil_iff]
    intro e he hs
    obtain ⟨hee, hd⟩ := List.mem_filter.mp he
    exact hg (mem_distinctGroups.mpr
      ⟨e, hee, hd, seriesHas_iff.mp (by simpa using hs)⟩)
  rw [entriesForGroup, hfil]
  simp [sortedPosts]

/-- C7 instantiated at a one-entry collection and an unknown identifier. -/
theorem C7_unknown_group_witness :
    ("nonexistent-id" ∉ distinctGroups [postGo]) ∧
    (entriesForGroup [postGo] "nonexistent-id" = [] ∧
     distinctGroups ([] : List ContentEntry) = []) :=
  ⟨by decide, C7_unknown_group [postGo] "nonexistent-id" (by decide)⟩

/-- C8: building the index leaves the input collection unchanged, and a
second run on that unchanged collection returns a structurally identical
index. -/
theorem C8_idempotent (entries : List ContentEntry) :
    (buildIndexRun entries).2 = entries ∧
    (buildIndexRun ((buildIndexRun entries).2)).1 = (buildIndexRun entries).1 :=
  ⟨rfl, rfl⟩

/-- C9: an entry whose draft flag is absent passes the collection filter
(JavaScript `!undefined` is `true`), indistinguishably from an explicit
`draft: false`, so it participates in group discovery and appears in the
listing of each of its groups. -/
theorem C9_absent_draft (entries : List ContentEntry) (e : ContentEntry)
    (hnone : e.draft = none) (he : e ∈ entries) :
    notDraft e = true ∧
    notDraft e = notDraft { e with draft := some false } ∧
    ∀ g ∈ seriesOrEmpty e,
      g ∈ distinctGroups entries ∧ e ∈ entriesForGroup entries g := by
  have hd : notDraft e = true := by simp [notDraft, hnone]
  refine ⟨hd, by simp [notDraft, hnone], ?_⟩
  intro g hg
  exact ⟨mem_distinctGroups.mpr ⟨e, he, hd, hg⟩,
    mem_entriesForGroup.mpr ⟨he, hd, seriesHas_iff.mpr hg⟩⟩

/-- C9 instantiated at a one-entry collection whose entry has no draft flag. -/
theorem C9_absent_draft_witness :
    postGo.draft = none ∧ postGo ∈ [postGo] ∧
    (notDraft postGo = true ∧
     notDraft postGo = notDraft { postGo with draft := some false } ∧
     ∀ g ∈ seriesOrEmpty postGo,
       g ∈ distinctGroups [postGo] ∧ postGo ∈ entriesForGroup [postGo] g) :=
  ⟨rfl, List.mem_singleton.mpr rfl,
   C9_absent_draft [postGo] postGo rfl (List.mem_singleton.mpr rfl)⟩

/-- C10: every identifier discovered by `distinctGroups` owes its presence to
at least one non-excluded entry carrying it, and that entry survives the
group filter, so the group's listing is never empty. -/
theorem C10_group_nonempty (entries : List ContentEntry) (g : String)
    (hg : g ∈ distinctGroups entries) :
    entriesForGroup entries g ≠ [] := by
  obtain ⟨e, he, hd, hgs⟩ := mem_distinctGroups.mp hg
  have hmem : e ∈ entriesForGroup entries g :=
    mem_entriesForGroup.mpr ⟨he, hd, seriesHas_iff.mpr hgs⟩
  intro hnil
  rw [hnil] at hmem
  exact List.not_mem_nil e hmem

/-- C10 instantiated at a one-entry collection. -/
theorem C10_group_nonempty_witness :
    ("go-series" ∈ distinctGroups [postGo]) ∧
    entriesForGroup [postGo] "go-series" ≠ [] :=
  ⟨by decide, C10_group_nonempty [postGo] "go-series" (by decide)⟩

end SeriesPage
